import Mathlib

/-!
# Verification of the disk-persisted LRU cache (`src/cache.rs`)

This file shallowly embeds `SyncLruCache<T>` from `src/cache.rs` together
with the parts of the external `lru` crate (`lru::LruCache`) that the code
relies on, and proves the specification claims about it.

Modelling decisions:

* `lru::LruCache<String, T>` is modelled as `LruCache T`: a capacity plus an
  association list of `(key, value)` pairs kept in recency order, most
  recently used first.  The crate's documented behaviour is embedded
  directly: `put` inserts or updates a key and moves it to the head, and
  when inserting a fresh key into a full cache it evicts the tail (the
  least recently used entry); `get` and `get_mut` promote the key to the
  head on a hit; `iter` yields entries from most to least recently used.
* File-system effects are modelled by an explicit `FileContent T` value for
  the store's path, threaded through the operations.  Reading the file can
  fail in the three distinct ways the Rust code distinguishes: `File::open`
  failing (the `if let Ok` falls through to an empty cache, whether the
  file is missing or the open is denied), `read_to_string` failing after a
  successful open (the `?` propagates an I/O error), and
  `serde_json::from_str` failing (the `?` propagates a decode error).
  `serde_json` round-trips exactly, so a snapshot written by
  `sync_to_file` is modelled as the structured entry list itself.
* `sync_to_file` writes the snapshot to a temporary path and renames it
  onto the destination; the destination file therefore changes only when
  the whole write-then-rename sequence succeeds, which is modelled by a
  boolean `ioOk` for each persistence attempt.
-/

/-- `CacheEntry<T>` from `src/cache.rs`: one serialized `{key, value}` pair
of the snapshot. -/
structure CacheEntry (T : Type) where
  key : String
  value : T
deriving DecidableEq, Repr

/-- Lookup in an association list, first (most recent) binding wins.
Models `lru`-crate key lookup on the recency list. -/
def lookupKey {T : Type} : List (String × T) → String → Option T
  | [], _ => none
  | (k0, v0) :: rest, k => if k0 = k then some v0 else lookupKey rest k

/-- Remove every binding of `k` from an association list.  Used to model
the `lru` crate detaching an entry before re-attaching it at the head. -/
def removeKey {T : Type} : List (String × T) → String → List (String × T)
  | [], _ => []
  | (k0, v0) :: rest, k =>
    if k0 = k then removeKey rest k else (k0, v0) :: removeKey rest k

/-- Model of `lru::LruCache<String, T>`: fixed capacity plus the entries in
recency order, most recently used first. -/
structure LruCache (T : Type) where
  cap : Nat
  entries : List (String × T)
deriving Repr

/-- `LruCache::new(size)`: the empty cache of the given capacity. -/
def LruCache.empty (T : Type) (cap : Nat) : LruCache T := ⟨cap, []⟩

/-- `lru::LruCache::put`: update an existing key (returning the old value)
or insert a fresh one, moving the key to the most-recently-used head; a
fresh insert into a full cache first evicts the least recently used entry
(the tail). -/
def LruCache.put {T : Type} (c : LruCache T) (k : String) (v : T) :
    Option T × LruCache T :=
  match lookupKey c.entries k with
  | some old => (some old, ⟨c.cap, (k, v) :: removeKey c.entries k⟩)
  | none =>
    let es := (k, v) :: c.entries
    if c.cap < es.length then (none, ⟨c.cap, es.dropLast⟩)
    else (none, ⟨c.cap, es⟩)

/-- `lru::LruCache::get`: on a hit, return the value and promote the key to
the most-recently-used head; a miss changes nothing. -/
def LruCache.get {T : Type} (c : LruCache T) (k : String) :
    Option T × LruCache T :=
  match lookupKey c.entries k with
  | some v => (some v, ⟨c.cap, (k, v) :: removeKey c.entries k⟩)
  | none => (none, c)

/-- `lru::LruCache::get_mut`: like `get`, the key is promoted to the head
on a hit; the returned value is the one the caller may mutate in place. -/
def LruCache.get_mut {T : Type} (c : LruCache T) (k : String) :
    Option T × LruCache T :=
  match lookupKey c.entries k with
  | some v => (some v, ⟨c.cap, (k, v) :: removeKey c.entries k⟩)
  | none => (none, c)

/-- The state of the snapshot file at the store's path, as distinguished by
the Rust code's error paths (see the module docstring). -/
inductive FileContent (T : Type) where
  | missing
  | openDenied
  | readFault
  | malformed
  | valid (entries : List (CacheEntry T))
deriving Repr

/-- The two failure kinds surfaced through `io::Result` in `cache.rs`: a
plain I/O fault, and a `serde_json` decode failure converted into an
`io::Error`. -/
inductive CacheErr where
  | ioFault
  | decodeFault
deriving DecidableEq, Repr

/-- `SyncLruCache<T>` from `src/cache.rs`: the in-memory LRU cache plus the
path of its backing file. -/
structure SyncLruCache (T : Type) where
  cache : LruCache T
  file_path : String

/-- The replay loop of `SyncLruCache::new`: `for entry in entries
{ cache.put(entry.key, entry.value); }`. -/
def replayEntries {T : Type} (c : LruCache T) : List (CacheEntry T) → LruCache T
  | [] => c
  | e :: rest => replayEntries (c.put e.key e.value).2 rest

/-- `SyncLruCache::new(size, file_path)` evaluated against the state of the
file at `file_path`.  `File::open` failing (file missing, or open denied)
takes the `else` branch and starts empty; a read fault after a successful
open and a `serde_json` parse failure are propagated by `?`. -/
def SyncLruCache.new {T : Type} (size : Nat) (file_path : String)
    (disk : FileContent T) : Except CacheErr (SyncLruCache T) :=
  match disk with
  | .missing => .ok ⟨LruCache.empty T size, file_path⟩
  | .openDenied => .ok ⟨LruCache.empty T size, file_path⟩
  | .readFault => .error .ioFault
  | .malformed => .error .decodeFault
  | .valid entries =>
      .ok ⟨replayEntries (LruCache.empty T size) entries, file_path⟩

/-- The entry list `sync_to_file` serializes: `self.cache.iter()` in order
from most to least recently used, each pair packed into a `CacheEntry`. -/
def snapshotOf {T : Type} (c : LruCache T) : List (CacheEntry T) :=
  c.entries.map (fun e => ⟨e.1, e.2⟩)

/-- `SyncLruCache::sync_to_file`: serialize the whole cache, write it to
the temporary path, and rename it onto `file_path`.  The destination file
changes only if the whole sequence succeeds (`ioOk`); any failure before or
at the rename leaves the destination unchanged and surfaces an I/O
error. -/
def sync_to_file {T : Type} (c : LruCache T) (disk : FileContent T)
    (ioOk : Bool) : Except CacheErr Unit × FileContent T :=
  if ioOk then (.ok (), .valid (snapshotOf c)) else (.error .ioFault, disk)

/-- `SyncLruCache::put`: mutate the in-memory cache first, then persist;
a persistence failure is returned after the mutation has happened. -/
def SyncLruCache.put {T : Type} (s : SyncLruCache T) (k : String) (v : T)
    (disk : FileContent T) (ioOk : Bool) :
    Except CacheErr (Option T) × SyncLruCache T × FileContent T :=
  let r := s.cache.put k v
  match sync_to_file r.2 disk ioOk with
  | (.ok _, disk2) => (.ok r.1, ⟨r.2, s.file_path⟩, disk2)
  | (.error e, disk2) => (.error e, ⟨r.2, s.file_path⟩, disk2)

/-- `SyncLruCache::get`: `self.cache.get(key).cloned()`; touches only the
in-memory structure. -/
def SyncLruCache.get {T : Type} (s : SyncLruCache T) (k : String) :
    Option T × SyncLruCache T :=
  let r := s.cache.get k
  (r.1, ⟨r.2, s.file_path⟩)

/-- `SyncLruCache::get_mut`: `self.cache.get_mut(key)`; the file state is
threaded through untouched to record that no persistence happens. -/
def SyncLruCache.get_mut {T : Type} (s : SyncLruCache T) (k : String)
    (disk : FileContent T) :
    Option T × SyncLruCache T × FileContent T :=
  let r := s.cache.get_mut k
  (r.1, ⟨r.2, s.file_path⟩, disk)

/-- Decoding the snapshot file independently (`serde_json::from_str` on
the file's contents): only a readable, well-formed file decodes. -/
def decodeFile {T : Type} : FileContent T → Except CacheErr (List (CacheEntry T))
  | .valid es => .ok es
  | .malformed => .error .decodeFault
  | _ => .error .ioFault

/-- Lookup in a decoded snapshot, first binding of the key wins. -/
def entriesLookup {T : Type} : List (CacheEntry T) → String → Option T
  | [], _ => none
  | e :: rest, k => if e.key = k then some e.value else entriesLookup rest k

/-- Well-formedness of the recency list: at most `cap` entries and no
duplicate keys — the invariants the `lru` crate maintains. -/
def LruCache.WF {T : Type} (c : LruCache T) : Prop :=
  c.entries.length ≤ c.cap ∧ (c.entries.map Prod.fst).Nodup

section BasicLemmas

variable {T : Type}

theorem lookupKey_eq_none_iff (l : List (String × T)) (k : String) :
    lookupKey l k = none ↔ k ∉ l.map Prod.fst := by
  induction l with
  | nil => simp [lookupKey]
  | cons e rest ih =>
    obtain ⟨k0, v0⟩ := e
    by_cases h : k0 = k <;> simp [lookupKey, h, ih, Ne.symm]

theorem lookupKey_isSome_of_mem {l : List (String × T)} {k : String} {v : T}
    (h : (k, v) ∈ l) : (lookupKey l k).isSome := by
  induction l with
  | nil => simp at h
  | cons e rest ih =>
    obtain ⟨k0, v0⟩ := e
    rcases List.mem_cons.1 h with h0 | h0
    · cases h0; simp [lookupKey]
    · by_cases hk : k0 = k <;> simp [lookupKey, hk, ih h0]

theorem removeKey_sublist (l : List (String × T)) (k : String) :
    List.Sublist (removeKey l k) l := by
  induction l with
  | nil => simp [removeKey]
  | cons e rest ih =>
    obtain ⟨k0, v0⟩ := e
    by_cases h : k0 = k
    · simpa [removeKey, h] using ih.cons (k0, v0)
    · simpa [removeKey, h] using ih.cons₂ (k0, v0)

theorem removeKey_of_not_mem {l : List (String × T)} {k : String}
    (h : k ∉ l.map Prod.fst) : removeKey l k = l := by
  induction l with
  | nil => rfl
  | cons e rest ih =>
    obtain ⟨k0, v0⟩ := e
    simp only [List.map_cons, List.mem_cons] at h
    push_neg at h
    have h1 : ¬ k0 = k := fun hh => h.1 hh.symm
    simp [removeKey, h1, ih h.2]

theorem map_fst_removeKey (l : List (String × T)) (k : String) :
    (removeKey l k).map Prod.fst = (l.map Prod.fst).filter (fun s => s ≠ k) := by
  induction l with
  | nil => rfl
  | cons e rest ih =>
    obtain ⟨k0, v0⟩ := e
    by_cases h : k0 = k <;> simp [removeKey, h, ih, List.filter_cons]

theorem not_mem_map_fst_removeKey (l : List (String × T)) (k : String) :
    k ∉ (removeKey l k).map Prod.fst := by
  rw [map_fst_removeKey]
  simp

theorem length_removeKey_lt {l : List (String × T)} {k : String}
    (h : k ∈ l.map Prod.fst) : (removeKey l k).length < l.length := by
  induction l with
  | nil => simp at h
  | cons e rest ih =>
    obtain ⟨k0, v0⟩ := e
    by_cases hk : k0 = k
    · simp only [removeKey, hk, if_pos rfl]
      exact Nat.lt_succ_of_le (removeKey_sublist rest k).length_le
    · simp only [List.map_cons, List.mem_cons] at h
      rcases h with h | h
      · exact absurd h.symm hk
      · simpa [removeKey, hk] using ih h

/-- Equation: `put` on a present key. -/
theorem LruCache.put_of_some {c : LruCache T} {k : String} {old : T}
    (h : lookupKey c.entries k = some old) (v : T) :
    c.put k v = (some old, ⟨c.cap, (k, v) :: removeKey c.entries k⟩) := by
  unfold LruCache.put
  rw [h]

/-- Equation: `put` of a fresh key into a full cache evicts the tail. -/
theorem LruCache.put_of_none_full {c : LruCache T} {k : String}
    (h : lookupKey c.entries k = none) (hfull : c.cap < c.entries.length + 1)
    (v : T) :
    c.put k v = (none, ⟨c.cap, ((k, v) :: c.entries).dropLast⟩) := by
  unfold LruCache.put
  rw [h]
  simp [hfull]

/-- Equation: `put` of a fresh key with room just conses it at the head. -/
theorem LruCache.put_of_none_room {c : LruCache T} {k : String}
    (h : lookupKey c.entries k = none)
    (hroom : ¬ c.cap < c.entries.length + 1) (v : T) :
    c.put k v = (none, ⟨c.cap, (k, v) :: c.entries⟩) := by
  unfold LruCache.put
  rw [h]
  simp [hroom]

/-- Equation: `get` on a hit promotes the key to the head. -/
theorem LruCache.get_of_some {c : LruCache T} {k : String} {v : T}
    (h : lookupKey c.entries k = some v) :
    c.get k = (some v, ⟨c.cap, (k, v) :: removeKey c.entries k⟩) := by
  unfold LruCache.get
  rw [h]

/-- Equation: `get` on a miss changes nothing. -/
theorem LruCache.get_of_none {c : LruCache T} {k : String}
    (h : lookupKey c.entries k = none) : c.get k = (none, c) := by
  unfold LruCache.get
  rw [h]

/-- Equation: `get_mut` on a hit promotes the key to the head. -/
theorem LruCache.get_mut_of_some {c : LruCache T} {k : String} {v : T}
    (h : lookupKey c.entries k = some v) :
    c.get_mut k = (some v, ⟨c.cap, (k, v) :: removeKey c.entries k⟩) := by
  unfold LruCache.get_mut
  rw [h]

/-- `put` always returns exactly the previously stored value for the key. -/
theorem LruCache.put_fst (c : LruCache T) (k : String) (v : T) :
    (c.put k v).1 = lookupKey c.entries k := by
  cases h : lookupKey c.entries k with
  | some old => rw [LruCache.put_of_some h]
  | none =>
    by_cases hfull : c.cap < c.entries.length + 1
    · rw [LruCache.put_of_none_full h hfull]
    · rw [LruCache.put_of_none_room h hfull]

theorem LruCache.put_cap (c : LruCache T) (k : String) (v : T) :
    (c.put k v).2.cap = c.cap := by
  cases h : lookupKey c.entries k with
  | some old => rw [LruCache.put_of_some h]
  | none =>
    by_cases hfull : c.cap < c.entries.length + 1
    · rw [LruCache.put_of_none_full h hfull]
    · rw [LruCache.put_of_none_room h hfull]

theorem lookupKey_mem_keys {l : List (String × T)} {k : String} {v : T}
    (h : lookupKey l k = some v) : k ∈ l.map Prod.fst := by
  by_contra hk
  rw [(lookupKey_eq_none_iff l k).2 hk] at h
  exact Option.noConfusion h

/-- `put` preserves the capacity bound and key uniqueness. -/
theorem LruCache.put_WF {c : LruCache T} (hc : c.WF)
    (k : String) (v : T) : (c.put k v).2.WF := by
  obtain ⟨hlen, hnodup⟩ := hc
  cases hlook : lookupKey c.entries k with
  | some old =>
    rw [LruCache.put_of_some hlook]
    refine ⟨?_, ?_⟩
    · simpa using Nat.succ_le_of_lt
        (Nat.lt_of_lt_of_le (length_removeKey_lt (lookupKey_mem_keys hlook)) hlen)
    · exact List.Nodup.cons (not_mem_map_fst_removeKey _ _)
        (List.Nodup.sublist ((removeKey_sublist _ _).map Prod.fst) hnodup)
  | none =>
    have hk : k ∉ c.entries.map Prod.fst := (lookupKey_eq_none_iff _ _).1 hlook
    by_cases hfull : c.cap < c.entries.length + 1
    · rw [LruCache.put_of_none_full hlook hfull]
      refine ⟨?_, ?_⟩
      · simp only [List.length_dropLast, List.length_cons]
        omega
      · exact List.Nodup.sublist ((List.dropLast_sublist _).map Prod.fst)
          (List.Nodup.cons hk hnodup)
    · rw [LruCache.put_of_none_room hlook hfull]
      exact ⟨by simp only [List.length_cons]; omega, List.Nodup.cons hk hnodup⟩

/-- `get` preserves the capacity bound and key uniqueness. -/
theorem LruCache.get_WF {c : LruCache T} (hc : c.WF)
    (k : String) : (c.get k).2.WF := by
  obtain ⟨hlen, hnodup⟩ := hc
  cases hlook : lookupKey c.entries k with
  | some v =>
    rw [LruCache.get_of_some hlook]
    refine ⟨?_, ?_⟩
    · simpa using Nat.succ_le_of_lt
        (Nat.lt_of_lt_of_le (length_removeKey_lt (lookupKey_mem_keys hlook)) hlen)
    · exact List.Nodup.cons (not_mem_map_fst_removeKey _ _)
        (List.Nodup.sublist ((removeKey_sublist _ _).map Prod.fst) hnodup)
  | none =>
    rw [LruCache.get_of_none hlook]
    exact ⟨hlen, hnodup⟩

end BasicLemmas

section SnapshotLemmas

variable {T : Type}

theorem entriesLookup_map_pair (l : List (String × T)) (q : String) :
    entriesLookup (l.map fun e => ⟨e.1, e.2⟩) q = lookupKey l q := by
  induction l with
  | nil => rfl
  | cons e rest ih =>
    obtain ⟨k0, v0⟩ := e
    by_cases h : k0 = q <;> simp [entriesLookup, lookupKey, h, ih]

/-- Looking a key up in the serialized snapshot agrees with looking it up
in the in-memory recency list. -/
theorem entriesLookup_snapshotOf (c : LruCache T) (q : String) :
    entriesLookup (snapshotOf c) q = lookupKey c.entries q :=
  entriesLookup_map_pair c.entries q

theorem map_pair_snapshotOf (c : LruCache T) :
    (snapshotOf c).map (fun e => (e.key, e.value)) = c.entries := by
  unfold snapshotOf
  induction c.entries with
  | nil => rfl
  | cons e rest ih => simpa using ih

theorem map_key_snapshotOf (c : LruCache T) :
    (snapshotOf c).map (fun e => e.key) = c.entries.map Prod.fst := by
  unfold snapshotOf
  induction c.entries with
  | nil => rfl
  | cons e rest ih => simp [ih]

theorem length_snapshotOf (c : LruCache T) :
    (snapshotOf c).length = c.entries.length := by
  simp [snapshotOf]

theorem lookupKey_append_of_some {l1 : List (String × T)} {k : String} {v : T}
    (h : lookupKey l1 k = some v) (l2 : List (String × T)) :
    lookupKey (l1 ++ l2) k = some v := by
  induction l1 with
  | nil => simp [lookupKey] at h
  | cons e rest ih =>
    obtain ⟨k0, v0⟩ := e
    by_cases hk : k0 = k
    · subst hk
      simp only [lookupKey, if_pos rfl] at h
      simp only [List.cons_append, lookupKey, if_pos rfl]
      exact h
    · simp only [lookupKey, if_neg hk] at h
      simp only [List.cons_append, lookupKey, if_neg hk]
      exact ih h

theorem lookupKey_append_of_none {l1 : List (String × T)} {k : String}
    (h : lookupKey l1 k = none) (l2 : List (String × T)) :
    lookupKey (l1 ++ l2) k = lookupKey l2 k := by
  induction l1 with
  | nil => rfl
  | cons e rest ih =>
    obtain ⟨k0, v0⟩ := e
    by_cases hk : k0 = k
    · simp [lookupKey, hk] at h
    · simp only [lookupKey, if_neg hk] at h
      simp only [List.cons_append, lookupKey, if_neg hk]
      exact ih h

/-- On a duplicate-free association list, reversal does not change lookup
results. -/
theorem lookupKey_reverse (l : List (String × T)) (k : String)
    (h : (l.map Prod.fst).Nodup) :
    lookupKey l.reverse k = lookupKey l k := by
  induction l with
  | nil => rfl
  | cons e rest ih =>
    obtain ⟨k0, v0⟩ := e
    simp only [List.map_cons, List.nodup_cons] at h
    obtain ⟨hk0, hrest⟩ := h
    rw [List.reverse_cons]
    by_cases hq : k0 = k
    · subst hq
      have hnone : lookupKey rest k0 = none := (lookupKey_eq_none_iff _ _).2 hk0
      rw [lookupKey_append_of_none (by rw [ih hrest]; exact hnone)]
      simp [lookupKey]
    · cases hcase : lookupKey rest k with
      | some v =>
        rw [lookupKey_append_of_some (by rw [ih hrest]; exact hcase)]
        simp [lookupKey, hq, hcase]
      | none =>
        rw [lookupKey_append_of_none (by rw [ih hrest]; exact hcase)]
        simp [lookupKey, hq, hcase]

/-- Replaying a duplicate-free entry list that fits within the capacity
never evicts: the final recency list is the replayed entries reversed
(each replayed entry became the new most-recently-used head) on top of the
starting entries. -/
theorem replayEntries_entries :
    ∀ (es : List (CacheEntry T)) (c : LruCache T),
      (es.map (fun e => e.key)).Nodup →
      (∀ e ∈ es, e.key ∉ c.entries.map Prod.fst) →
      c.entries.length + es.length ≤ c.cap →
      (replayEntries c es).entries
          = (es.map fun e => (e.key, e.value)).reverse ++ c.entries ∧
        (replayEntries c es).cap = c.cap := by
  intro es
  induction es with
  | nil =>
    intro c _ _ _
    exact ⟨by simp [replayEntries], rfl⟩
  | cons e rest ih =>
    intro c hnd hdisj hlen
    simp only [List.map_cons, List.nodup_cons] at hnd
    have hfresh : lookupKey c.entries e.key = none :=
      (lookupKey_eq_none_iff _ _).2 (hdisj e (List.mem_cons_self _ _))
    have hroom : ¬ c.cap < c.entries.length + 1 := by
      simp only [List.length_cons] at hlen
      omega
    have hstep : replayEntries c (e :: rest)
        = replayEntries ⟨c.cap, (e.key, e.value) :: c.entries⟩ rest := by
      have h0 : replayEntries c (e :: rest)
          = replayEntries (c.put e.key e.value).2 rest := rfl
      rw [h0, LruCache.put_of_none_room hfresh hroom]
    have hdisj2 : ∀ e2 ∈ rest,
        e2.key ∉ List.map Prod.fst ((e.key, e.value) :: c.entries) := by
      intro e2 he2
      simp only [List.map_cons, List.mem_cons, not_or]
      refine ⟨?_, hdisj e2 (List.mem_cons_of_mem _ he2)⟩
      intro hcontra
      exact hnd.1 (hcontra ▸ List.mem_map_of_mem (fun x => x.key) he2)
    have hlen2 : ((e.key, e.value) :: c.entries).length + rest.length ≤ c.cap := by
      simp only [List.length_cons] at hlen ⊢
      omega
    obtain ⟨hent, hcap⟩ := ih ⟨c.cap, (e.key, e.value) :: c.entries⟩ hnd.2 hdisj2 hlen2
    rw [hstep]
    refine ⟨?_, hcap⟩
    rw [hent]
    simp [List.reverse_cons]

/-- Reconstructing from a snapshot of a well-formed cache reverses the
recency order without losing or adding entries. -/
theorem replay_snapshot (c : LruCache T) (cap : Nat)
    (hnd : (c.entries.map Prod.fst).Nodup) (hlen : c.entries.length ≤ cap) :
    (replayEntries (LruCache.empty T cap) (snapshotOf c)).entries
        = c.entries.reverse ∧
      (replayEntries (LruCache.empty T cap) (snapshotOf c)).cap = cap := by
  have h := replayEntries_entries (snapshotOf c) (LruCache.empty T cap)
    (by rw [map_key_snapshotOf]; exact hnd)
    (by intro e _; simp [LruCache.empty])
    (by simp only [LruCache.empty, List.length_nil, Nat.zero_add,
          length_snapshotOf]; exact hlen)
  obtain ⟨hent, hcap⟩ := h
  refine ⟨?_, hcap⟩
  rw [hent, map_pair_snapshotOf]
  simp [LruCache.empty]

end SnapshotLemmas

section SyncLemmas

variable {T : Type}

/-- Equation: a `put` whose persistence step succeeds. -/
theorem SyncLruCache.put_true (s : SyncLruCache T) (k : String) (v : T)
    (disk : FileContent T) :
    s.put k v disk true =
      (.ok (s.cache.put k v).1, ⟨(s.cache.put k v).2, s.file_path⟩,
        .valid (snapshotOf (s.cache.put k v).2)) := rfl

/-- Equation: a `put` whose persistence step fails; the in-memory mutation
has already happened and the destination file is untouched. -/
theorem SyncLruCache.put_false (s : SyncLruCache T) (k : String) (v : T)
    (disk : FileContent T) :
    s.put k v disk false =
      (.error .ioFault, ⟨(s.cache.put k v).2, s.file_path⟩, disk) := rfl

theorem LruCache.get_fst (c : LruCache T) (k : String) :
    (c.get k).1 = lookupKey c.entries k := by
  cases h : lookupKey c.entries k with
  | some v => rw [LruCache.get_of_some h]
  | none => rw [LruCache.get_of_none h]

/-- The in-memory mutation applied by a sequence of `put` calls (the
persistence outcome never feeds back into the in-memory structure). -/
def applyPuts (c : LruCache T) (ps : List (String × T)) : LruCache T :=
  ps.foldl (fun c p => (c.put p.1 p.2).2) c

theorem applyPuts_cap (c : LruCache T) (ps : List (String × T)) :
    (applyPuts c ps).cap = c.cap := by
  induction ps generalizing c with
  | nil => rfl
  | cons p rest ih =>
    show (applyPuts ((c.put p.1 p.2).2) rest).cap = c.cap
    rw [ih, LruCache.put_cap]

theorem applyPuts_WF {c : LruCache T} (hc : c.WF) (ps : List (String × T)) :
    (applyPuts c ps).WF := by
  induction ps generalizing c with
  | nil => exact hc
  | cons p rest ih =>
    exact ih (LruCache.put_WF hc p.1 p.2)

theorem LruCache.empty_WF (T : Type) (cap : Nat) : (LruCache.empty T cap).WF :=
  ⟨Nat.zero_le _, List.nodup_nil⟩

end SyncLemmas

/-- C1: for every store state and key-value pair, immediately after a
successful `put(key, value)` returns, independently decoding the file at
the store's path succeeds and yields entries whose key-to-value mapping is
identical to the store's current in-memory contents. -/
theorem claim_C1_durability_after_put {T : Type} (s : SyncLruCache T)
    (k : String) (v : T) (disk : FileContent T) (ioOk : Bool) (p : Option T)
    (hok : (s.put k v disk ioOk).1 = .ok p) :
    ∃ es, decodeFile (s.put k v disk ioOk).2.2 = .ok es ∧
      ∀ q, entriesLookup es q
          = lookupKey (s.put k v disk ioOk).2.1.cache.entries q := by
  cases ioOk with
  | false =>
    rw [SyncLruCache.put_false] at hok
    exact absurd hok (by simp)
  | true =>
    refine ⟨snapshotOf (s.cache.put k v).2, ?_, ?_⟩
    · rw [SyncLruCache.put_true]
      rfl
    · intro q
      rw [SyncLruCache.put_true]
      exact entriesLookup_snapshotOf _ q

/-- Witness for C1 at a concrete store, key and disk state. -/
theorem claim_C1_durability_after_put_witness :
    ∃ es, decodeFile
        ((⟨LruCache.empty Nat 2, "cache.json"⟩ : SyncLruCache Nat).put
          "apple" 3 .missing true).2.2 = .ok es ∧
      ∀ q, entriesLookup es q
          = lookupKey ((⟨LruCache.empty Nat 2, "cache.json"⟩ :
              SyncLruCache Nat).put
                "apple" 3 .missing true).2.1.cache.entries q :=
  claim_C1_durability_after_put ⟨LruCache.empty Nat 2, "cache.json"⟩
    "apple" 3 .missing true none rfl

/-- C5: storing any entries via `put` (at most `capacity` many survive in
memory), persisting, then reconstructing a new store with the same
capacity from the persisted snapshot yields a store whose `get` agrees
with the original store on every key: original keys return the original
values, all other keys return `none`. -/
theorem claim_C5_round_trip {T : Type} (cap : Nat) (ps : List (String × T))
    (path2 : String) :
    ∃ s2, SyncLruCache.new cap path2
        (.valid (snapshotOf (applyPuts (LruCache.empty T cap) ps))) = .ok s2 ∧
      ∀ q, (s2.get q).1
          = lookupKey (applyPuts (LruCache.empty T cap) ps).entries q := by
  have hwf := applyPuts_WF (LruCache.empty_WF T cap) ps
  have hcap := applyPuts_cap (LruCache.empty T cap) ps
  obtain ⟨hent, _⟩ := replay_snapshot (applyPuts (LruCache.empty T cap) ps) cap
    hwf.2 (hwf.1.trans (le_of_eq hcap))
  refine ⟨⟨replayEntries (LruCache.empty T cap)
      (snapshotOf (applyPuts (LruCache.empty T cap) ps)), path2⟩, rfl, ?_⟩
  intro q
  rw [SyncLruCache.get, LruCache.get_fst]
  show lookupKey (replayEntries (LruCache.empty T cap)
      (snapshotOf (applyPuts (LruCache.empty T cap) ps))).entries q = _
  rw [hent]
  exact lookupKey_reverse _ q hwf.2

/-- C6 counterexample: at a file that exists but whose open is denied
(permission fault), construction does NOT fail — it silently succeeds with
an empty store, because the code's `if let Ok(file) = File::open(..)`
treats every open failure like a missing file. -/
theorem claim_C6_counterexample :
    (∃ s : SyncLruCache Nat,
        SyncLruCache.new 2 "cache.json" FileContent.openDenied = .ok s ∧
          s.cache.entries = []) ∧
      ∀ e : CacheErr, SyncLruCache.new (T := Nat) 2 "cache.json"
          FileContent.openDenied ≠ .error e := by
  refine ⟨⟨⟨LruCache.empty Nat 2, "cache.json"⟩, rfl, rfl⟩, ?_⟩
  intro e h
  simp [SyncLruCache.new] at h

/-- C6 amended: a failure of `File::open` itself (including a permission
fault on an existing file) silently yields an empty store; only a read
fault occurring after a successful open is surfaced as a failure. -/
theorem claim_C6_amended_open_vs_read (T : Type) (size : Nat) (path : String) :
    (SyncLruCache.new (T := T) size path .openDenied
        = .ok ⟨LruCache.empty T size, path⟩ ∧
      (LruCache.empty T size).entries = []) ∧
    SyncLruCache.new (T := T) size path .readFault = .error .ioFault :=
  ⟨⟨rfl, rfl⟩, rfl⟩

/-- C7: a readable file whose contents do not parse as a snapshot makes
construction fail with a deserialization error (no empty or partial
store is returned), while a missing file yields an empty store. -/
theorem claim_C7_malformed_fails_missing_empty (T : Type) (size : Nat)
    (path : String) :
    SyncLruCache.new (T := T) size path .malformed = .error .decodeFault ∧
    SyncLruCache.new (T := T) size path .missing
        = .ok ⟨LruCache.empty T size, path⟩ ∧
    (LruCache.empty T size).entries = [] :=
  ⟨rfl, rfl, rfl⟩

/-- C8: when the persistence step of a `put` fails, the failure is
returned to the caller, yet the in-memory mutation remains applied — the
resulting in-memory store is exactly the one a successful `put` would
have produced — and the destination file is unchanged. -/
theorem claim_C8_failed_put_keeps_mutation {T : Type} (s : SyncLruCache T)
    (k : String) (v : T) (disk : FileContent T) (ioOk : Bool)
    (hfail : ∀ p, (s.put k v disk ioOk).1 ≠ .ok p) :
    (s.put k v disk ioOk).1 = .error .ioFault ∧
    (s.put k v disk ioOk).2.1.cache = (s.cache.put k v).2 ∧
    (s.put k v disk ioOk).2.1 = (s.put k v disk true).2.1 ∧
    (s.put k v disk ioOk).2.2 = disk := by
  cases ioOk with
  | true =>
    exact absurd (by rw [SyncLruCache.put_true]) (hfail (s.cache.put k v).1)
  | false =>
    exact ⟨rfl, rfl, rfl, rfl⟩

/-- Witness for C8 at a concrete store with a failing persistence step. -/
theorem claim_C8_failed_put_keeps_mutation_witness :
    ((⟨LruCache.empty Nat 2, "cache.json"⟩ : SyncLruCache Nat).put
        "apple" 3 .missing false).1 = .error .ioFault ∧
    ((⟨LruCache.empty Nat 2, "cache.json"⟩ : SyncLruCache Nat).put
        "apple" 3 .missing false).2.1.cache
      = ((LruCache.empty Nat 2).put "apple" 3).2 ∧
    ((⟨LruCache.empty Nat 2, "cache.json"⟩ : SyncLruCache Nat).put
        "apple" 3 .missing false).2.1
      = ((⟨LruCache.empty Nat 2, "cache.json"⟩ : SyncLruCache Nat).put
          "apple" 3 .missing true).2.1 ∧
    ((⟨LruCache.empty Nat 2, "cache.json"⟩ : SyncLruCache Nat).put
        "apple" 3 .missing false).2.2 = FileContent.missing :=
  claim_C8_failed_put_keeps_mutation ⟨LruCache.empty Nat 2, "cache.json"⟩
    "apple" 3 .missing false (fun _ h => Except.noConfusion h)

/-- C10: for a key present in the store, `get_mut` promotes it to the
most-recently-used head — it becomes the last of the current entries in
line for eviction — while the backing file is not touched at all. -/
theorem claim_C10_get_mut_promotes {T : Type} (s : SyncLruCache T)
    (k : String) (v : T) (disk : FileContent T)
    (hpresent : lookupKey s.cache.entries k = some v) :
    (s.get_mut k disk).1 = some v ∧
    (s.get_mut k disk).2.1.cache.entries
        = (k, v) :: removeKey s.cache.entries k ∧
    (s.get_mut k disk).2.1.cache.entries.head? = some (k, v) ∧
    (s.get_mut k disk).2.2 = disk := by
  have h := LruCache.get_mut_of_some hpresent
  unfold SyncLruCache.get_mut
  rw [h]
  exact ⟨rfl, rfl, rfl, rfl⟩

/-- Witness for C10 at a concrete two-entry store. -/
theorem claim_C10_get_mut_promotes_witness :
    ((⟨⟨2, [("banana", 2), ("apple", 3)]⟩, "cache.json"⟩ :
        SyncLruCache Nat).get_mut "apple" .missing).1 = some 3 ∧
    ((⟨⟨2, [("banana", 2), ("apple", 3)]⟩, "cache.json"⟩ :
        SyncLruCache Nat).get_mut "apple" .missing).2.1.cache.entries
      = ("apple", 3) :: removeKey [("banana", 2), ("apple", 3)] "apple" ∧
    ((⟨⟨2, [("banana", 2), ("apple", 3)]⟩, "cache.json"⟩ :
        SyncLruCache Nat).get_mut "apple" .missing).2.1.cache.entries.head?
      = some ("apple", 3) ∧
    ((⟨⟨2, [("banana", 2), ("apple", 3)]⟩, "cache.json"⟩ :
        SyncLruCache Nat).get_mut "apple" .missing).2.2
      = FileContent.missing :=
  claim_C10_get_mut_promotes
    ⟨⟨2, [("banana", 2), ("apple", 3)]⟩, "cache.json"⟩ "apple" 3 .missing rfl

/-- C2: starting from an empty store of capacity `cap`, no sequence of
`put` calls ever pushes the entry count above `cap`; and a `put` that
inserts a fresh key into a full store evicts exactly one existing entry
(the tail of the recency list), leaving the count at `cap`. -/
theorem claim_C2_capacity_bound {T : Type} (cap : Nat) (ps : List (String × T))
    (k : String) (v : T)
    (hfull : (applyPuts (LruCache.empty T cap) ps).entries.length = cap)
    (hfresh : lookupKey (applyPuts (LruCache.empty T cap) ps).entries k = none)
    (hpos : 0 < cap) :
    (∀ qs : List (String × T),
        (applyPuts (LruCache.empty T cap) qs).entries.length ≤ cap) ∧
    ∃ victim,
      (applyPuts (LruCache.empty T cap) ps).entries
          = (applyPuts (LruCache.empty T cap) ps).entries.dropLast
              ++ [victim] ∧
      ((applyPuts (LruCache.empty T cap) ps).put k v).2.entries
          = (k, v) :: (applyPuts (LruCache.empty T cap) ps).entries.dropLast ∧
      ((applyPuts (LruCache.empty T cap) ps).put k v).2.entries.length
          = cap := by
  constructor
  · intro qs
    exact (applyPuts_WF (LruCache.empty_WF T cap) qs).1.trans
      (le_of_eq (applyPuts_cap _ qs))
  · have hcap : (applyPuts (LruCache.empty T cap) ps).cap = cap :=
      applyPuts_cap _ ps
    have hne : (applyPuts (LruCache.empty T cap) ps).entries ≠ [] := by
      intro h
      rw [h] at hfull
      simp only [List.length_nil] at hfull
      omega
    have hlt : (applyPuts (LruCache.empty T cap) ps).cap
        < (applyPuts (LruCache.empty T cap) ps).entries.length + 1 := by
      rw [hcap, hfull]
      omega
    have hput := LruCache.put_of_none_full hfresh hlt v
    refine ⟨(applyPuts (LruCache.empty T cap) ps).entries.getLast hne,
      (List.dropLast_append_getLast hne).symm, ?_, ?_⟩
    · rw [hput]
      cases hE : (applyPuts (LruCache.empty T cap) ps).entries with
      | nil => exact absurd hE hne
      | cons a l => simp [List.dropLast_cons₂]
    · rw [hput]
      simp only [List.length_dropLast, List.length_cons]
      omega

/-- Witness for C2 at capacity 2 with two puts and a fresh third key. -/
theorem claim_C2_capacity_bound_witness :
    (applyPuts (LruCache.empty Nat 2) [("a", 0), ("b", 0)]).entries.length
        = 2 ∧
    lookupKey (applyPuts (LruCache.empty Nat 2)
        [("a", 0), ("b", 0)]).entries "c" = none ∧
    0 < 2 ∧
    ((∀ qs : List (String × Nat),
        (applyPuts (LruCache.empty Nat 2) qs).entries.length ≤ 2) ∧
      ∃ victim,
        (applyPuts (LruCache.empty Nat 2) [("a", 0), ("b", 0)]).entries
            = (applyPuts (LruCache.empty Nat 2)
                [("a", 0), ("b", 0)]).entries.dropLast ++ [victim] ∧
        ((applyPuts (LruCache.empty Nat 2)
            [("a", 0), ("b", 0)]).put "c" 0).2.entries
            = ("c", (0 : Nat)) :: (applyPuts (LruCache.empty Nat 2)
                [("a", 0), ("b", 0)]).entries.dropLast ∧
        ((applyPuts (LruCache.empty Nat 2)
            [("a", 0), ("b", 0)]).put "c" 0).2.entries.length = 2) :=
  ⟨rfl, rfl, by omega,
    claim_C2_capacity_bound 2 [("a", 0), ("b", 0)] "c" 0 rfl rfl (by omega)⟩

/-- C9: the snapshot lists entries most-recently-used first and
construction replays the file in order, so persisting a full well-formed
store and reconstructing it from the same snapshot reverses the recency
order: the reconstructed entries are the old ones reversed, and the entry
that was most recently used before persisting (`mru`, the old head) is
exactly the entry the next eviction removes. -/
theorem claim_C9_reload_reverses_recency {T : Type} (s : SyncLruCache T)
    (path2 : String) (hwf : s.cache.WF)
    (hfull : s.cache.entries.length = s.cache.cap) (hpos : 0 < s.cache.cap)
    (k : String) (v : T) (hfresh : lookupKey s.cache.entries k = none) :
    ∃ s2 mru,
      SyncLruCache.new s.cache.cap path2 (.valid (snapshotOf s.cache))
          = .ok s2 ∧
      s.cache.entries.head? = some mru ∧
      s2.cache.entries = s.cache.entries.reverse ∧
      (s2.cache.put k v).2.entries
          = (k, v) :: s.cache.entries.reverse.dropLast ∧
      s.cache.entries.reverse
          = s.cache.entries.reverse.dropLast ++ [mru] ∧
      mru.1 ∉ ((s2.cache.put k v).2.entries.map Prod.fst) := by
  have hne : s.cache.entries ≠ [] := by
    intro h
    rw [h] at hfull
    simp only [List.length_nil] at hfull
    omega
  obtain ⟨hent, hcap2⟩ := replay_snapshot s.cache s.cache.cap hwf.2
    (le_of_eq hfull)
  have hhead : s.cache.entries.head? = some (s.cache.entries.head hne) :=
    List.head?_eq_head hne
  have hfresh2 : lookupKey (replayEntries (LruCache.empty T s.cache.cap)
      (snapshotOf s.cache)).entries k = none := by
    rw [hent, lookupKey_reverse _ _ hwf.2]
    exact hfresh
  have hlt : (replayEntries (LruCache.empty T s.cache.cap)
      (snapshotOf s.cache)).cap
      < (replayEntries (LruCache.empty T s.cache.cap)
          (snapshotOf s.cache)).entries.length + 1 := by
    rw [hcap2, hent, List.length_reverse, hfull]
    omega
  have hput := LruCache.put_of_none_full hfresh2 hlt v
  have hrevne : s.cache.entries.reverse ≠ [] := by
    intro hE
    exact hne (List.reverse_eq_nil_iff.mp hE)
  have hdrop : ((k, v) :: s.cache.entries.reverse).dropLast
      = (k, v) :: s.cache.entries.reverse.dropLast := by
    cases hE : s.cache.entries.reverse with
    | nil => exact absurd hE hrevne
    | cons a l => simp [List.dropLast_cons₂]
  have hsplit : s.cache.entries.reverse
      = s.cache.entries.reverse.dropLast ++ [s.cache.entries.head hne] := by
    refine (List.dropLast_append_getLast? _ ?_).symm
    rw [Option.mem_def, List.getLast?_reverse]
    exact hhead
  have hkeyne : (s.cache.entries.head hne).1 ≠ k := by
    intro hcontra
    have hmem : s.cache.entries.head hne ∈ s.cache.entries :=
      List.head_mem hne
    have hsome := lookupKey_isSome_of_mem
      (show ((s.cache.entries.head hne).1, (s.cache.entries.head hne).2)
          ∈ s.cache.entries from by simp only [Prod.mk.eta]; exact hmem)
    rw [hcontra, hfresh] at hsome
    simp at hsome
  have hrevnodup : ((s.cache.entries.reverse).map Prod.fst).Nodup := by
    rw [List.map_reverse]
    exact List.nodup_reverse.mpr hwf.2
  have hnotin : (s.cache.entries.head hne).1
      ∉ (s.cache.entries.reverse.dropLast).map Prod.fst := by
    intro hmem
    rw [hsplit] at hrevnodup
    simp only [List.map_append, List.map_cons, List.map_nil] at hrevnodup
    rcases List.nodup_append.mp hrevnodup with ⟨-, -, hdisj⟩
    exact hdisj hmem (by simp)
  refine ⟨⟨replayEntries (LruCache.empty T s.cache.cap)
      (snapshotOf s.cache), path2⟩,
    s.cache.entries.head hne, rfl, hhead, hent, ?_, hsplit, ?_⟩
  · show ((replayEntries (LruCache.empty T s.cache.cap)
        (snapshotOf s.cache)).put k v).2.entries = _
    rw [hput]
    show ((k, v) :: (replayEntries (LruCache.empty T s.cache.cap)
        (snapshotOf s.cache)).entries).dropLast = _
    rw [hent]
    exact hdrop
  · show (s.cache.entries.head hne).1
        ∉ ((replayEntries (LruCache.empty T s.cache.cap)
            (snapshotOf s.cache)).put k v).2.entries.map Prod.fst
    rw [hput]
    show (s.cache.entries.head hne).1
        ∉ (((k, v) :: (replayEntries (LruCache.empty T s.cache.cap)
            (snapshotOf s.cache)).entries).dropLast).map Prod.fst
    rw [hent, hdrop]
    simp only [List.map_cons, List.mem_cons, not_or]
    exact ⟨hkeyne, hnotin⟩

/-- Witness for C9 at a concrete full two-entry store. -/
theorem claim_C9_reload_reverses_recency_witness :
    ∃ (s2 : SyncLruCache Nat) (mru : String × Nat),
      SyncLruCache.new
          (⟨⟨2, [("banana", 2), ("apple", 3)]⟩, "p"⟩ :
            SyncLruCache Nat).cache.cap "q"
          (.valid (snapshotOf (⟨⟨2, [("banana", 2), ("apple", 3)]⟩, "p"⟩ :
            SyncLruCache Nat).cache)) = .ok s2 ∧
      (⟨⟨2, [("banana", 2), ("apple", 3)]⟩, "p"⟩ :
          SyncLruCache Nat).cache.entries.head? = some mru ∧
      s2.cache.entries = (⟨⟨2, [("banana", 2), ("apple", 3)]⟩, "p"⟩ :
          SyncLruCache Nat).cache.entries.reverse ∧
      (s2.cache.put "pear" 5).2.entries
          = ("pear", 5) :: (⟨⟨2, [("banana", 2), ("apple", 3)]⟩, "p"⟩ :
              SyncLruCache Nat).cache.entries.reverse.dropLast ∧
      (⟨⟨2, [("banana", 2), ("apple", 3)]⟩, "p"⟩ :
          SyncLruCache Nat).cache.entries.reverse
          = (⟨⟨2, [("banana", 2), ("apple", 3)]⟩, "p"⟩ :
              SyncLruCache Nat).cache.entries.reverse.dropLast ++ [mru] ∧
      mru.1 ∉ ((s2.cache.put "pear" 5).2.entries.map Prod.fst) :=
  claim_C9_reload_reverses_recency
    ⟨⟨2, [("banana", 2), ("apple", 3)]⟩, "p"⟩ "q"
    ⟨by decide, by decide⟩ rfl (by decide) "pear" 5 rfl

/-- The scenario of §8.6 of the spec, capacity 2, all persistence steps
succeeding, starting from a missing file. -/
def demoState0 : SyncLruCache Nat := ⟨LruCache.empty Nat 2, "cache.json"⟩

def demoPut1 := demoState0.put "apple" 3 FileContent.missing true

def demoPut2 := demoPut1.2.1.put "banana" 2 demoPut1.2.2 true

def demoGet1 := demoPut2.2.1.get "apple"

def demoGet2 := demoGet1.2.get "banana"

def demoGet3 := demoGet2.2.get "pear"

def demoPut3 := demoGet3.2.put "banana" 4 demoPut2.2.2 true

def demoPut4 := demoPut3.2.1.put "pear" 5 demoPut3.2.2 true

def demoGet4 := demoPut4.2.1.get "pear"

def demoGet5 := demoGet4.2.get "banana"

def demoGet6 := demoGet5.2.get "apple"

/-- C3: on a capacity-2 store, after `put("apple",3)`, `put("banana",2)`,
`get("apple") = 3`, `get("banana") = 2`, `get("pear") = none`, the call
`put("banana",4)` returns previous value `2`, the call `put("pear",5)`
returns `none` and evicts the key `"apple"` (present with value 3 before,
absent after), and subsequently `get("pear") = 5`, `get("banana") = 4`,
`get("apple") = none`. -/
theorem claim_C3_concrete_scenario :
    demoGet1.1 = some 3 ∧ demoGet2.1 = some 2 ∧ demoGet3.1 = none ∧
    demoPut3.1 = .ok (some 2) ∧
    demoPut4.1 = .ok none ∧
    lookupKey demoPut3.2.1.cache.entries "apple" = some 3 ∧
    lookupKey demoPut4.2.1.cache.entries "apple" = none ∧
    demoGet4.1 = some 5 ∧ demoGet5.1 = some 4 ∧ demoGet6.1 = none :=
  ⟨rfl, rfl, rfl, rfl, rfl, rfl, rfl, rfl, rfl, rfl⟩

/-- A cache operation of the exclusive store: a read or a write.  (The
persistence side never feeds back into the in-memory structure, so for
recency questions only the in-memory effect matters.) -/
inductive Op (T : Type) where
  | get (k : String)
  | put (k : String) (v : T)

/-- The in-memory effect of one operation. -/
def stepOp {T : Type} (c : LruCache T) : Op T → LruCache T
  | .get k => (c.get k).2
  | .put k v => (c.put k v).2

/-- The in-memory cache after a history of operations starting empty. -/
def runOps {T : Type} (cap : Nat) (ops : List (Op T)) : LruCache T :=
  ops.foldl stepOp (LruCache.empty T cap)

/-- Whether an operation names the key `k` (is a `get` or `put` of it). -/
def namesKey {T : Type} : Op T → String → Prop
  | .get k0, k => k0 = k
  | .put k0 _, k => k0 = k

/-- `t` is the index of the last operation in `ops` that touches `k`:
the operation at position `t` names `k` and no later operation does. -/
def isLastTouch {T : Type} (ops : List (Op T)) (k : String) (t : Nat) : Prop :=
  ∃ pre o suf, ops = pre ++ o :: suf ∧ pre.length = t ∧ namesKey o k ∧
    ∀ o2 ∈ suf, ¬ namesKey o2 k

/-- Ghost instrumentation of the recency list: the same list manipulation
the cache performs, but storing for every present key the clock value of
the operation that last touched it. -/
def touchStep {T : Type} (cap : Nat) (ts : List (String × Nat)) (o : Op T)
    (now : Nat) : List (String × Nat) :=
  match o with
  | .get k =>
    match lookupKey ts k with
    | some _ => (k, now) :: removeKey ts k
    | none => ts
  | .put k _ =>
    match lookupKey ts k with
    | some _ => (k, now) :: removeKey ts k
    | none =>
      let es := (k, now) :: ts
      if cap < es.length then es.dropLast else es

def touchRunFrom {T : Type} (cap : Nat) :
    List (Op T) → Nat → List (String × Nat) → List (String × Nat)
  | [], _, ts => ts
  | o :: rest, now, ts => touchRunFrom cap rest (now + 1) (touchStep cap ts o now)

/-- The recency list of the run of `ops` from empty, with each key paired
with the index of the operation that last touched it. -/
def touchRun {T : Type} (cap : Nat) (ops : List (Op T)) :
    List (String × Nat) :=
  touchRunFrom cap ops 0 []

section TouchLemmas

variable {T : Type}

/-- Unfolding equation for `touchStep` on a `get`. -/
theorem touchStep_get (cap now : Nat) (ts : List (String × Nat)) (k : String) :
    touchStep (T := T) cap ts (Op.get k) now
      = match lookupKey ts k with
        | some _ => (k, now) :: removeKey ts k
        | none => ts := rfl

/-- Unfolding equation for `touchStep` on a `put`. -/
theorem touchStep_put (cap now : Nat) (ts : List (String × Nat)) (k : String)
    (v : T) :
    touchStep cap ts (Op.put k v) now
      = match lookupKey ts k with
        | some _ => (k, now) :: removeKey ts k
        | none =>
          if cap < ts.length + 1 then ((k, now) :: ts).dropLast
          else (k, now) :: ts := rfl

/-- Any entry of `touchStep` is either the freshly touched head or one of
the previous entries. -/
theorem mem_touchStep {cap now : Nat} {ts : List (String × Nat)} {o : Op T}
    {e : String × Nat} (h : e ∈ touchStep cap ts o now) :
    e.2 = now ∨ e ∈ ts := by
  cases o with
  | get k =>
    rw [touchStep_get cap now ts k] at h
    cases hl : lookupKey ts k with
    | some t0 =>
      simp only [hl] at h
      rcases List.mem_cons.1 h with h0 | h0
      · left; rw [h0]
      · right; exact (removeKey_sublist ts k).subset h0
    | none =>
      simp only [hl] at h
      exact Or.inr h
  | put k v =>
    rw [touchStep_put cap now ts k v] at h
    cases hl : lookupKey ts k with
    | some t0 =>
      simp only [hl] at h
      rcases List.mem_cons.1 h with h0 | h0
      · left; rw [h0]
      · right; exact (removeKey_sublist ts k).subset h0
    | none =>
      simp only [hl] at h
      by_cases hfull : cap < ts.length + 1
      · rw [if_pos hfull] at h
        have h2 : e ∈ (k, now) :: ts := (List.dropLast_sublist _).subset h
        rcases List.mem_cons.1 h2 with h0 | h0
        · left; rw [h0]
        · right; exact h0
      · rw [if_neg hfull] at h
        rcases List.mem_cons.1 h with h0 | h0
        · left; rw [h0]
        · right; exact h0

/-- All recorded times stay below the clock. -/
theorem touchStep_bound {cap now : Nat} {ts : List (String × Nat)} {o : Op T}
    (hb : ∀ e ∈ ts, e.2 < now) :
    ∀ e ∈ touchStep cap ts o now, e.2 < now + 1 := by
  intro e he
  rcases mem_touchStep he with h | h
  · omega
  · exact Nat.lt_succ_of_lt (hb e h)

/-- The recency list stays strictly decreasing in recorded touch times. -/
theorem touchStep_pairwise {cap now : Nat} {ts : List (String × Nat)}
    {o : Op T} (hb : ∀ e ∈ ts, e.2 < now)
    (hp : ts.Pairwise (fun a b => b.2 < a.2)) :
    (touchStep cap ts o now).Pairwise (fun a b => b.2 < a.2) := by
  have hcons : ∀ (l2 : List (String × Nat)) (k : String),
      List.Sublist l2 ts →
      ((k, now) :: l2).Pairwise (fun a b => b.2 < a.2) := by
    intro l2 k hsub
    refine List.Pairwise.cons ?_ (hp.sublist hsub)
    intro b hb2
    exact hb b (hsub.subset hb2)
  cases o with
  | get k =>
    rw [touchStep_get cap now ts k]
    cases hl : lookupKey ts k with
    | some t0 =>
      simp only [hl]
      exact hcons _ k (removeKey_sublist ts k)
    | none =>
      simp only [hl]
      exact hp
  | put k v =>
    rw [touchStep_put cap now ts k v]
    cases hl : lookupKey ts k with
    | some t0 =>
      simp only [hl]
      exact hcons _ k (removeKey_sublist ts k)
    | none =>
      simp only [hl]
      by_cases hfull : cap < ts.length + 1
      · rw [if_pos hfull]
        exact (hcons ts k (List.Sublist.refl ts)).sublist
          (List.dropLast_sublist _)
      · rw [if_neg hfull]
        exact hcons ts k (List.Sublist.refl ts)

theorem touchRunFrom_bound (cap : Nat) :
    ∀ (ops : List (Op T)) (now : Nat) (ts : List (String × Nat)),
      (∀ e ∈ ts, e.2 < now) →
      ∀ e ∈ touchRunFrom cap ops now ts, e.2 < now + ops.length := by
  intro ops
  induction ops with
  | nil =>
    intro now ts hb e he
    exact Nat.lt_of_lt_of_le (hb e he) (Nat.le_add_right _ _)
  | cons o rest ih =>
    intro now ts hb e he
    have := ih (now + 1) (touchStep cap ts o now) (touchStep_bound hb) e he
    simp only [List.length_cons] at this ⊢
    omega

theorem touchRunFrom_pairwise (cap : Nat) :
    ∀ (ops : List (Op T)) (now : Nat) (ts : List (String × Nat)),
      (∀ e ∈ ts, e.2 < now) →
      ts.Pairwise (fun a b => b.2 < a.2) →
      (touchRunFrom cap ops now ts).Pairwise (fun a b => b.2 < a.2) := by
  intro ops
  induction ops with
  | nil =>
    intro now ts _ hp
    exact hp
  | cons o rest ih =>
    intro now ts hb hp
    exact ih (now + 1) (touchStep cap ts o now) (touchStep_bound hb)
      (touchStep_pairwise hb hp)

/-- The recency list of the full instrumented run is strictly decreasing
in touch times. -/
theorem touchRun_pairwise (cap : Nat) (ops : List (Op T)) :
    (touchRun cap ops).Pairwise (fun a b => b.2 < a.2) :=
  touchRunFrom_pairwise cap ops 0 [] (by simp) List.Pairwise.nil

end TouchLemmas

section AgreeLemmas

variable {T : Type}

/-- The instrumented run manipulates exactly the same key sequence as the
cache itself: after one step the key lists still coincide. -/
theorem touchStep_agree {cap : Nat} (now : Nat) {c : LruCache T}
    {ts : List (String × Nat)} (o : Op T) (hcap : c.cap = cap)
    (h : ts.map Prod.fst = c.entries.map Prod.fst) :
    (touchStep cap ts o now).map Prod.fst
        = (stepOp c o).entries.map Prod.fst ∧ (stepOp c o).cap = cap := by
  have hlen : ts.length = c.entries.length := by
    have := congrArg List.length h
    simpa using this
  cases o with
  | get k =>
    show (touchStep cap ts (Op.get k) now).map Prod.fst
        = (c.get k).2.entries.map Prod.fst ∧ (c.get k).2.cap = cap
    cases hl : lookupKey c.entries k with
    | some v =>
      obtain ⟨t0, hts⟩ : ∃ t0, lookupKey ts k = some t0 := by
        cases hl2 : lookupKey ts k with
        | none =>
          have hk : k ∉ ts.map Prod.fst := (lookupKey_eq_none_iff ts k).1 hl2
          rw [h] at hk
          rw [(lookupKey_eq_none_iff c.entries k).2 hk] at hl
          exact Option.noConfusion hl
        | some t0 => exact ⟨t0, rfl⟩
      rw [touchStep_get cap now ts k]
      simp only [hts]
      rw [LruCache.get_of_some hl]
      refine ⟨?_, hcap⟩
      simp only [List.map_cons, map_fst_removeKey, h]
    | none =>
      have hts : lookupKey ts k = none := by
        refine (lookupKey_eq_none_iff ts k).2 ?_
        rw [h]
        exact (lookupKey_eq_none_iff c.entries k).1 hl
      rw [touchStep_get cap now ts k]
      simp only [hts]
      rw [LruCache.get_of_none hl]
      exact ⟨h, hcap⟩
  | put k v =>
    show (touchStep cap ts (Op.put k v) now).map Prod.fst
        = (c.put k v).2.entries.map Prod.fst ∧ (c.put k v).2.cap = cap
    cases hl : lookupKey c.entries k with
    | some old =>
      obtain ⟨t0, hts⟩ : ∃ t0, lookupKey ts k = some t0 := by
        cases hl2 : lookupKey ts k with
        | none =>
          have hk : k ∉ ts.map Prod.fst := (lookupKey_eq_none_iff ts k).1 hl2
          rw [h] at hk
          rw [(lookupKey_eq_none_iff c.entries k).2 hk] at hl
          exact Option.noConfusion hl
        | some t0 => exact ⟨t0, rfl⟩
      rw [touchStep_put cap now ts k v]
      simp only [hts]
      rw [LruCache.put_of_some hl v]
      refine ⟨?_, hcap⟩
      simp only [List.map_cons, map_fst_removeKey, h]
    | none =>
      have hts : lookupKey ts k = none := by
        refine (lookupKey_eq_none_iff ts k).2 ?_
        rw [h]
        exact (lookupKey_eq_none_iff c.entries k).1 hl
      rw [touchStep_put cap now ts k v]
      simp only [hts]
      by_cases hfull : c.cap < c.entries.length + 1
      · have hfull2 : cap < ts.length + 1 := by
          rw [hlen, ← hcap]
          exact hfull
        rw [if_pos hfull2, LruCache.put_of_none_full hl hfull v]
        refine ⟨?_, hcap⟩
        rw [List.map_dropLast, List.map_dropLast]
        simp only [List.map_cons, h]
      · have hfull2 : ¬ cap < ts.length + 1 := by
          rw [hlen, ← hcap]
          exact hfull
        rw [if_neg hfull2, LruCache.put_of_none_room hl hfull v]
        refine ⟨?_, hcap⟩
        simp only [List.map_cons, h]

theorem touchRunFrom_agree (cap : Nat) :
    ∀ (ops : List (Op T)) (now : Nat) (c : LruCache T)
      (ts : List (String × Nat)),
      c.cap = cap → ts.map Prod.fst = c.entries.map Prod.fst →
      (touchRunFrom cap ops now ts).map Prod.fst
        = (ops.foldl stepOp c).entries.map Prod.fst := by
  intro ops
  induction ops with
  | nil =>
    intro now c ts _ h
    exact h
  | cons o rest ih =>
    intro now c ts hcap h
    obtain ⟨h2, hcap2⟩ := touchStep_agree now o hcap h
    exact ih (now + 1) (stepOp c o) (touchStep cap ts o now) hcap2 h2

/-- The instrumented run records exactly the cache's key sequence: the keys
of `touchRun`, in order, are the keys of the recency list of `runOps`. -/
theorem touchRun_agree (cap : Nat) (ops : List (Op T)) :
    (touchRun cap ops).map Prod.fst = (runOps cap ops).entries.map Prod.fst :=
  touchRunFrom_agree cap ops 0 (LruCache.empty T cap) [] rfl rfl

end AgreeLemmas

section LastTouchLemmas

variable {T : Type}

/-- An entry carrying the current clock value can only have been produced
by the current operation touching that key. -/
theorem touchStep_mem_now {cap now : Nat} {ts : List (String × Nat)}
    {o : Op T} {k : String} (hb : ∀ e ∈ ts, e.2 < now)
    (h : (k, now) ∈ touchStep cap ts o now) : namesKey o k := by
  cases o with
  | get k0 =>
    rw [touchStep_get cap now ts k0] at h
    cases hl : lookupKey ts k0 with
    | some t0 =>
      simp only [hl] at h
      rcases List.mem_cons.1 h with h0 | h0
      · exact (congrArg Prod.fst h0).symm
      · exact absurd (hb _ ((removeKey_sublist ts k0).subset h0))
          (Nat.lt_irrefl now)
    | none =>
      simp only [hl] at h
      exact absurd (hb _ h) (Nat.lt_irrefl now)
  | put k0 v =>
    rw [touchStep_put cap now ts k0 v] at h
    cases hl : lookupKey ts k0 with
    | some t0 =>
      simp only [hl] at h
      rcases List.mem_cons.1 h with h0 | h0
      · exact (congrArg Prod.fst h0).symm
      · exact absurd (hb _ ((removeKey_sublist ts k0).subset h0))
          (Nat.lt_irrefl now)
    | none =>
      simp only [hl] at h
      by_cases hfull : cap < ts.length + 1
      · rw [if_pos hfull] at h
        have h2 : (k, now) ∈ (k0, now) :: ts := (List.dropLast_sublist _).subset h
        rcases List.mem_cons.1 h2 with h0 | h0
        · exact (congrArg Prod.fst h0).symm
        · exact absurd (hb _ h0) (Nat.lt_irrefl now)
      · rw [if_neg hfull] at h
        rcases List.mem_cons.1 h with h0 | h0
        · exact (congrArg Prod.fst h0).symm
        · exact absurd (hb _ h0) (Nat.lt_irrefl now)

/-- An entry with an older time survives `touchStep` untouched, and the
current operation cannot have named its key. -/
theorem touchStep_mem_old {cap now t : Nat} {ts : List (String × Nat)}
    {o : Op T} {k : String} (h : (k, t) ∈ touchStep cap ts o now)
    (hne : t ≠ now) : (k, t) ∈ ts ∧ ¬ namesKey o k := by
  cases o with
  | get k0 =>
    rw [touchStep_get cap now ts k0] at h
    cases hl : lookupKey ts k0 with
    | some t0 =>
      simp only [hl] at h
      rcases List.mem_cons.1 h with h0 | h0
      · exact absurd (congrArg Prod.snd h0) hne
      · refine ⟨(removeKey_sublist ts k0).subset h0, ?_⟩
        intro hk
        subst hk
        exact not_mem_map_fst_removeKey ts k0
          (List.mem_map_of_mem Prod.fst h0)
    | none =>
      simp only [hl] at h
      refine ⟨h, ?_⟩
      intro hk
      subst hk
      exact (lookupKey_eq_none_iff ts k0).1 hl
        (List.mem_map_of_mem Prod.fst h)
  | put k0 v =>
    rw [touchStep_put cap now ts k0 v] at h
    cases hl : lookupKey ts k0 with
    | some t0 =>
      simp only [hl] at h
      rcases List.mem_cons.1 h with h0 | h0
      · exact absurd (congrArg Prod.snd h0) hne
      · refine ⟨(removeKey_sublist ts k0).subset h0, ?_⟩
        intro hk
        subst hk
        exact not_mem_map_fst_removeKey ts k0
          (List.mem_map_of_mem Prod.fst h0)
    | none =>
      simp only [hl] at h
      by_cases hfull : cap < ts.length + 1
      · rw [if_pos hfull] at h
        have h2 : (k, t) ∈ (k0, now) :: ts := (List.dropLast_sublist _).subset h
        rcases List.mem_cons.1 h2 with h0 | h0
        · exact absurd (congrArg Prod.snd h0) hne
        · refine ⟨h0, ?_⟩
          intro hk
          subst hk
          exact (lookupKey_eq_none_iff ts k0).1 hl
            (List.mem_map_of_mem Prod.fst h0)
      · rw [if_neg hfull] at h
        rcases List.mem_cons.1 h with h0 | h0
        · exact absurd (congrArg Prod.snd h0) hne
        · refine ⟨h0, ?_⟩
          intro hk
          subst hk
          exact (lookupKey_eq_none_iff ts k0).1 hl
            (List.mem_map_of_mem Prod.fst h0)

/-- Every recorded time is the index of the last operation naming its key:
either the entry predates `now` and nothing in `ops` names the key, or
`ops` splits around the operation recorded by the time, after which the
key is never named again. -/
theorem touchRunFrom_lastTouch (cap : Nat) :
    ∀ (ops : List (Op T)) (now : Nat) (ts : List (String × Nat))
      (k : String) (t : Nat),
      (∀ e ∈ ts, e.2 < now) →
      (k, t) ∈ touchRunFrom cap ops now ts →
      (t < now ∧ (k, t) ∈ ts ∧ ∀ o ∈ ops, ¬ namesKey o k)
      ∨ (∃ pre o suf, ops = pre ++ o :: suf ∧ now + pre.length = t ∧
          namesKey o k ∧ ∀ o2 ∈ suf, ¬ namesKey o2 k) := by
  intro ops
  induction ops with
  | nil =>
    intro now ts k t hb h
    exact Or.inl ⟨hb _ h, h, fun o ho => absurd ho (List.not_mem_nil o)⟩
  | cons o rest ih =>
    intro now ts k t hb h
    rcases ih (now + 1) (touchStep cap ts o now) k t
        (touchStep_bound hb) h with
      ⟨ht, hmem, hnorest⟩ | ⟨pre, o2, suf, heq, hlen, hname, hnosuf⟩
    · by_cases heqt : t = now
      · subst heqt
        refine Or.inr ⟨[], o, rest, rfl, by simp, ?_, hnorest⟩
        exact touchStep_mem_now hb hmem
      · obtain ⟨hmem2, hnameo⟩ := touchStep_mem_old hmem heqt
        refine Or.inl ⟨?_, hmem2, ?_⟩
        · omega
        · intro o2 ho2
          rcases List.mem_cons.1 ho2 with h0 | h0
          · rw [h0]
            exact hnameo
          · exact hnorest o2 h0
    · refine Or.inr ⟨o :: pre, o2, suf, ?_, ?_, hname, hnosuf⟩
      · rw [List.cons_append, heq]
      · simp only [List.length_cons] at hlen ⊢
        omega

/-- Every entry of the full instrumented run records the index of the last
`get`/`put` of its key. -/
theorem touchRun_lastTouch (cap : Nat) (ops : List (Op T)) (k : String)
    (t : Nat) (h : (k, t) ∈ touchRun cap ops) : isLastTouch ops k t := by
  rcases touchRunFrom_lastTouch cap ops 0 [] k t (by simp) h with
    ⟨-, hmem, -⟩ | ⟨pre, o, suf, heq, hlen, hname, hnosuf⟩
  · exact absurd hmem (List.not_mem_nil _)
  · exact ⟨pre, o, suf, heq, by omega, hname, hnosuf⟩

end LastTouchLemmas

section RunLemmas

variable {T : Type}

theorem LruCache.get_cap (c : LruCache T) (k : String) :
    (c.get k).2.cap = c.cap := by
  cases h : lookupKey c.entries k with
  | some v => rw [LruCache.get_of_some h]
  | none => rw [LruCache.get_of_none h]

theorem stepOp_cap (c : LruCache T) (o : Op T) : (stepOp c o).cap = c.cap := by
  cases o with
  | get k => exact LruCache.get_cap c k
  | put k v => exact LruCache.put_cap c k v

theorem foldl_stepOp_cap :
    ∀ (ops : List (Op T)) (c : LruCache T), (ops.foldl stepOp c).cap = c.cap := by
  intro ops
  induction ops with
  | nil => intro c; rfl
  | cons o rest ih => intro c; rw [List.foldl_cons, ih, stepOp_cap]

theorem runOps_cap (cap : Nat) (ops : List (Op T)) :
    (runOps cap ops).cap = cap :=
  foldl_stepOp_cap ops (LruCache.empty T cap)

theorem stepOp_WF {c : LruCache T} (hc : c.WF) (o : Op T) : (stepOp c o).WF := by
  cases o with
  | get k => exact LruCache.get_WF hc k
  | put k v => exact LruCache.put_WF hc k v

theorem runOps_WF (cap : Nat) (ops : List (Op T)) : (runOps cap ops).WF := by
  suffices h : ∀ (ops : List (Op T)) (c : LruCache T), c.WF →
      (ops.foldl stepOp c).WF from
    h ops (LruCache.empty T cap) (LruCache.empty_WF T cap)
  intro ops
  induction ops with
  | nil => intro c hc; exact hc
  | cons o rest ih => intro c hc; exact ih (stepOp c o) (stepOp_WF hc o)

end RunLemmas

/-- C4: `put` always returns the previously stored value (or `none` when
the key was absent); and when a fresh key is inserted into a full store
reached by any history of `get`/`put` operations from empty, exactly one
entry — the tail `victim` of the recency list — is evicted, and that
victim is the entry least recently touched: its last-touch index `tv`
(the position of the last operation naming it, per `isLastTouch`) is
strictly smaller than the last-touch index of every other tracked key. -/
theorem claim_C4_put_prev_value_and_lru_eviction {T : Type} (cap : Nat)
    (ops : List (Op T)) (k : String) (v : T)
    (hfull : (runOps cap ops).entries.length = cap)
    (hfresh : lookupKey (runOps cap ops).entries k = none)
    (hpos : 0 < cap) :
    (∀ (d : LruCache T) (q : String) (w : T),
        (d.put q w).1 = lookupKey d.entries q) ∧
    ∃ victim tv,
      (runOps cap ops).entries
          = (runOps cap ops).entries.dropLast ++ [victim] ∧
      ((runOps cap ops).put k v).2.entries
          = (k, v) :: (runOps cap ops).entries.dropLast ∧
      (victim.1, tv) ∈ touchRun cap ops ∧
      isLastTouch ops victim.1 tv ∧
      (∀ p tp, (p, tp) ∈ touchRun cap ops → p ≠ victim.1 →
        isLastTouch ops p tp ∧ tv < tp) := by
  refine ⟨fun d q w => LruCache.put_fst d q w, ?_⟩
  have hne : (runOps cap ops).entries ≠ [] := by
    intro h
    rw [h] at hfull
    simp only [List.length_nil] at hfull
    omega
  have hlt : (runOps cap ops).cap < (runOps cap ops).entries.length + 1 := by
    rw [runOps_cap, hfull]
    omega
  have hput := LruCache.put_of_none_full hfresh hlt v
  have hkeys : (touchRun cap ops).map Prod.fst
      = (runOps cap ops).entries.map Prod.fst := touchRun_agree cap ops
  have hTne : touchRun cap ops ≠ [] := by
    intro h
    rw [h] at hkeys
    have := congrArg List.length hkeys
    simp only [List.map_nil, List.length_nil, List.length_map] at this
    rw [← this] at hfull
    omega
  have hsplitE : (runOps cap ops).entries
      = (runOps cap ops).entries.dropLast
          ++ [(runOps cap ops).entries.getLast hne] :=
    (List.dropLast_append_getLast hne).symm
  have hsplitT : touchRun cap ops
      = (touchRun cap ops).dropLast ++ [(touchRun cap ops).getLast hTne] :=
    (List.dropLast_append_getLast hTne).symm
  have hlastE : ((runOps cap ops).entries.map Prod.fst).getLast?
      = some ((runOps cap ops).entries.getLast hne).1 := by
    conv_lhs => rw [hsplitE]
    rw [List.map_append, List.map_cons, List.map_nil, List.getLast?_concat]
  have hlastT : ((touchRun cap ops).map Prod.fst).getLast?
      = some ((touchRun cap ops).getLast hTne).1 := by
    conv_lhs => rw [hsplitT]
    rw [List.map_append, List.map_cons, List.map_nil, List.getLast?_concat]
  have hfsteq : ((touchRun cap ops).getLast hTne).1
      = ((runOps cap ops).entries.getLast hne).1 := by
    rw [hkeys] at hlastT
    rw [hlastT] at hlastE
    exact Option.some.inj hlastE
  have hmemT : (((runOps cap ops).entries.getLast hne).1,
      ((touchRun cap ops).getLast hTne).2) ∈ touchRun cap ops := by
    rw [← hfsteq]
    exact List.getLast_mem hTne
  have hmin : ∀ p tp, (p, tp) ∈ touchRun cap ops →
      p ≠ ((runOps cap ops).entries.getLast hne).1 →
      ((touchRun cap ops).getLast hTne).2 < tp := by
    intro p tp hmem hneq
    have hpair := touchRun_pairwise cap ops
    rw [hsplitT] at hpair hmem
    rcases List.mem_append.1 hmem with h0 | h0
    · exact (List.pairwise_append.1 hpair).2.2 (p, tp) h0
        ((touchRun cap ops).getLast hTne) (List.mem_singleton.2 rfl)
    · exfalso
      apply hneq
      rw [← hfsteq]
      exact congrArg Prod.fst (List.mem_singleton.1 h0)
  refine ⟨(runOps cap ops).entries.getLast hne,
    ((touchRun cap ops).getLast hTne).2, hsplitE, ?_, hmemT,
    touchRun_lastTouch cap ops _ _ hmemT, ?_⟩
  · rw [hput]
    cases hE : (runOps cap ops).entries with
    | nil => exact absurd hE hne
    | cons a l => simp [List.dropLast_cons₂]
  · intro p tp hmem hneq
    exact ⟨touchRun_lastTouch cap ops p tp hmem, hmin p tp hmem hneq⟩

/-- The §8.6 scenario as an operation history, for the C4 witness. -/
def demoOps : List (Op Nat) :=
  [Op.put "apple" 3, Op.put "banana" 2, Op.get "apple", Op.get "banana",
    Op.get "pear", Op.put "banana" 4]

/-- Witness for C4: the concrete full store of capacity 2 reached by the
scenario history, with fresh key `"pear"`. -/
theorem claim_C4_put_prev_value_and_lru_eviction_witness :
    (runOps 2 demoOps).entries.length = 2 ∧
    lookupKey (runOps 2 demoOps).entries "pear" = none ∧
    0 < 2 ∧
    ((∀ (d : LruCache Nat) (q : String) (w : Nat),
        (d.put q w).1 = lookupKey d.entries q) ∧
      ∃ victim tv,
        (runOps 2 demoOps).entries
            = (runOps 2 demoOps).entries.dropLast ++ [victim] ∧
        ((runOps 2 demoOps).put "pear" 5).2.entries
            = ("pear", 5) :: (runOps 2 demoOps).entries.dropLast ∧
        (victim.1, tv) ∈ touchRun 2 demoOps ∧
        isLastTouch demoOps victim.1 tv ∧
        (∀ p tp, (p, tp) ∈ touchRun 2 demoOps → p ≠ victim.1 →
          isLastTouch demoOps p tp ∧ tv < tp)) :=
  ⟨rfl, rfl, by omega,
    claim_C4_put_prev_value_and_lru_eviction 2 demoOps "pear" 5 rfl rfl
      (by omega)⟩
